import Mathlib

/-!
Verification model of `src/parsers.h` (ninja's token/parser front end).

Only the header (declarations, inline members, doc comments) of the parser
is present in the repository sources; every function body lives in a
`parsers.cc` that the repository snapshot does not contain.  Declarations
and inline members (`Token::Type`, the `Tokenizer` constructor,
`Tokenizer::SetMakefileFlavor`, `Tokenizer::Location`) are translated
directly from the header; everything else is modelled from the spec, as
marked on each definition.

The byte buffer is a `List Char`; the source's `cur_`/`end_`/`cur_line_`
pointers become indices into that list (`end_` is `buf.length`).  All scan
loops are written with explicit structural fuel so that every definition
evaluates by kernel reduction.
-/

/-- `Token::Type` from the header (line 28): the token tag enumeration. -/
inductive Token.Type
  | NONE
  | UNKNOWN
  | IDENT
  | NEWLINE
  | EQUALS
  | COLON
  | PIPE
  | PIPE2
  | INDENT
  | OUTDENT
  | TEOF
deriving DecidableEq, Repr

/-- A single parsed token: a tag plus its span `[pos_, end_)` in the buffer
(the source stores `const char*` pointers; here they are indices). -/
structure Token where
  type_ : Token.Type
  pos_ : Nat
  end_ : Nat
deriving DecidableEq, Repr

/-- Human-readable name of a token type, used in expected/got messages.
Modelled from the spec: the error strings of `parsers.cc` are missing. -/
def Token.Type.typeName : Token.Type → String
  | .NONE => "none"
  | .UNKNOWN => "unknown char"
  | .IDENT => "identifier"
  | .NEWLINE => "newline"
  | .EQUALS => "'='"
  | .COLON => "':'"
  | .PIPE => "'|'"
  | .PIPE2 => "'||'"
  | .INDENT => "indent"
  | .OUTDENT => "outdent"
  | .TEOF => "eof"

/-- `SourceLocation` from the header (line 52): 1-based line and column. -/
structure SourceLocation where
  line_ : Nat
  column_ : Nat
deriving DecidableEq, Repr

/-- The formatted error text. Modelled from the spec: `SourceLocation::Error`
renders the position and message; its body is missing from the sources. -/
def SourceLocation.message (loc : SourceLocation) (message : String) : String :=
  toString loc.line_ ++ ":" ++ toString loc.column_ ++ ": " ++ message

/-- Modelled from the spec: `SourceLocation::Error` constructs an error
message based on the position, writes it into `err`, then returns `false`
(per the header doc comment at lines 55-57).  The C++ out-parameter `err`
becomes the second component of the result. -/
def SourceLocation.Error (loc : SourceLocation) (message : String) : Bool × String :=
  (false, loc.message message)

/-- Identifier character class of the native flavor: letters, digits,
`_`, `.`, `-`, `/`.  Modelled from the spec (section 4.2). -/
def isIdentChar (c : Char) : Bool :=
  c.isAlphanum || c = '_' || c = '.' || c = '-' || c = '/'

/-- Characters allowed in a `$name` variable reference inside a value.
Modelled from the spec: expansion recognizes `$`-references to names. -/
def isVarNameChar (c : Char) : Bool :=
  c.isAlphanum || c = '_'

/-- `Tokenizer` state from the header (lines 65-110).  `buf` plays the role
of the borrowed `[start, end_)` byte range; `cur_`, `cur_line_` and the
token span are indices into it.  `cur_indent_ = none` is the source's
`-1` sentinel meaning "at the start of a line, indent not yet measured". -/
structure Tokenizer where
  makefile_flavor_ : Bool
  buf : List Char
  cur_ : Nat
  cur_line_ : Nat
  token_ : Token
  line_number_ : Nat
  last_indent_ : Nat
  cur_indent_ : Option Nat
deriving DecidableEq, Repr

/-- The `end_` pointer of the source: one past the last buffer byte. -/
def Tokenizer.end_ (t : Tokenizer) : Nat := t.buf.length

/-- The `Tokenizer()` constructor from the header (lines 66-69):
`makefile_flavor_(false), token_(Token::NONE), line_number_(0),
last_indent_(0), cur_indent_(-1)`. -/
def Tokenizer.init : Tokenizer :=
  { makefile_flavor_ := false
    buf := []
    cur_ := 0
    cur_line_ := 0
    token_ := ⟨Token.Type.NONE, 0, 0⟩
    line_number_ := 0
    last_indent_ := 0
    cur_indent_ := none }

/-- `Tokenizer::SetMakefileFlavor` from the header (lines 74-76). -/
def Tokenizer.SetMakefileFlavor (t : Tokenizer) : Tokenizer :=
  { t with makefile_flavor_ := true }

/-- Modelled from the spec: `Tokenizer::Start` (declared at header line 78)
points the scanner at a fresh buffer, resetting all per-buffer state but
not the flavor. -/
def Tokenizer.Start (t : Tokenizer) (buf : List Char) : Tokenizer :=
  { t with
    buf := buf
    cur_ := 0
    cur_line_ := 0
    token_ := ⟨Token.Type.NONE, 0, 0⟩
    line_number_ := 0
    last_indent_ := 0
    cur_indent_ := none }

/-- `Tokenizer::Location` from the header (lines 97-99):
`SourceLocation(line_number_ + 1, token_.pos_ - cur_line_ + 1)`. -/
def Tokenizer.Location (t : Tokenizer) : SourceLocation :=
  ⟨t.line_number_ + 1, t.token_.pos_ - t.cur_line_ + 1⟩

/-- Modelled from the spec: `Tokenizer::Error` reports an error with a
location pointing at the current token (header doc comment, line 79). -/
def Tokenizer.Error (t : Tokenizer) (message : String) : Bool × String :=
  t.Location.Error message

/-- Modelled from the spec: `Tokenizer::ErrorExpected` calls `Error()` with
"expected foo, got bar" (header doc comment, line 81). -/
def Tokenizer.ErrorExpected (t : Tokenizer) (expected : String) : Bool × String :=
  t.Error ("expected " ++ expected ++ ", got " ++ t.token_.type_.typeName)

/-- The escape character that hides a newline: `$` in native flavor, a bare
backslash in makefile flavor.  Modelled from the spec (section 4.2). -/
def contChar (flavor : Bool) : Char :=
  if flavor then '\\' else '$'

/-- One step result of the whitespace scanner: `(consumed, newlines
crossed, most recent line start relative to the scan origin)`. -/
def wsBump (k : Nat) (r : Nat × Nat × Option Nat) : Nat × Nat × Option Nat :=
  (r.1 + k, r.2.1, r.2.2.map (· + k))

/-- Modelled from the spec: the insignificant-character scanner.  Skips
spaces and tabs, discards `#` comments to end of line, and consumes
escaped-newline continuations (`$` newline in native flavor, backslash
newline in makefile flavor), counting crossed physical lines.  It stops at
a real newline (which is a token), at any significant character, or at end
of buffer.  `inComment` tracks whether the scan is inside a comment. -/
def skipWSAux (flavor : Bool) : Nat → Bool → List Char → Nat × Nat × Option Nat
  | 0, _, _ => (0, 0, none)
  | _ + 1, _, [] => (0, 0, none)
  | fuel + 1, inComment, c :: rest =>
    if c = '\n' then (0, 0, none)
    else if inComment then wsBump 1 (skipWSAux flavor fuel true rest)
    else if c = ' ' || c = '\t' then wsBump 1 (skipWSAux flavor fuel false rest)
    else if c = '#' then wsBump 1 (skipWSAux flavor fuel true rest)
    else if c = contChar flavor && rest.head? = some '\n' then
      let r := skipWSAux flavor fuel false rest.tail
      (r.1 + 2, r.2.1 + 1, some (r.2.2.getD 0 + 2))
    else (0, 0, none)

/-- Whitespace scan over a buffer suffix, with enough fuel to finish. -/
def skipWS (flavor : Bool) (l : List Char) : Nat × Nat × Option Nat :=
  skipWSAux flavor (l.length + 1) false l

/-- Length of the identifier run starting a buffer suffix. -/
def identRunLength (l : List Char) : Nat :=
  (l.takeWhile isIdentChar).length

/-- Install a freshly scanned token. -/
def Tokenizer.setTok (t : Tokenizer) (ty : Token.Type) (pos e : Nat) : Tokenizer :=
  { t with token_ := ⟨ty, pos, e⟩ }

/-- Modelled from the spec: scan of one simple token at index `i`, whose
first character `c` is already known to be significant and not a newline.
`=`, `:`, `|`, `||` are single-purpose punctuation; `|` not immediately
followed by a second `|` yields `PIPE`, otherwise `PIPE2`; a maximal
identifier-character run yields `IDENT`; anything else is `UNKNOWN`. -/
def Tokenizer.scanFromChar (t : Tokenizer) (c : Char) (i : Nat) : Token.Type × Tokenizer :=
  if isIdentChar c then
    let j := i + identRunLength (t.buf.drop i)
    (.IDENT, { t.setTok .IDENT i j with cur_ := j })
  else if c = ':' then (.COLON, { t.setTok .COLON i (i + 1) with cur_ := i + 1 })
  else if c = '=' then (.EQUALS, { t.setTok .EQUALS i (i + 1) with cur_ := i + 1 })
  else if c = '|' then
    if t.buf[i + 1]? = some '|' then
      (.PIPE2, { t.setTok .PIPE2 i (i + 2) with cur_ := i + 2 })
    else (.PIPE, { t.setTok .PIPE i (i + 1) with cur_ := i + 1 })
  else (.UNKNOWN, { t.setTok .UNKNOWN i (i + 1) with cur_ := i + 1 })

/-- Modelled from the spec: scan the next token.  Insignificant whitespace
is skipped first; end of buffer yields sticky `TEOF` without moving the
cursor; a physical newline yields `NEWLINE` (line bookkeeping is done when
the token is consumed); at the start of a logical line the indentation run
is compared against the tracked level, emitting one `INDENT` or `OUTDENT`
pseudo-token; otherwise a simple token is scanned.  Blank and comment-only
lines produce no indent tokens (their newline is reached first). -/
def Tokenizer.scanToken (t : Tokenizer) : Token.Type × Tokenizer :=
  let r := skipWS t.makefile_flavor_ (t.buf.drop t.cur_)
  let i := t.cur_ + r.1
  let t1 : Tokenizer :=
    { t with
      cur_ := i
      line_number_ := t.line_number_ + r.2.1
      cur_line_ := match r.2.2 with
        | none => t.cur_line_
        | some k => t.cur_ + k }
  match t1.buf[i]? with
  | none => (.TEOF, t1.setTok .TEOF i i)
  | some c =>
    if c = '\n' then (.NEWLINE, { t1.setTok .NEWLINE i (i + 1) with cur_ := i + 1 })
    else
      match t1.cur_indent_ with
      | none =>
        let ind := i - t1.cur_line_
        let t2 := { t1 with cur_indent_ := some ind }
        if t1.last_indent_ < ind then
          (.INDENT, { t2.setTok .INDENT i i with last_indent_ := ind })
        else if ind < t1.last_indent_ then
          (.OUTDENT, { t2.setTok .OUTDENT i i with last_indent_ := ind })
        else t2.scanFromChar c i
      | some _ => t1.scanFromChar c i

/-- `Tokenizer::PeekToken` (declared at header line 94).  Modelled from the
spec: non-consuming lookahead of exactly one token; a previously peeked
token is returned again unchanged. -/
def Tokenizer.PeekToken (t : Tokenizer) : Token.Type × Tokenizer :=
  if t.token_.type_ = .NONE then t.scanToken else (t.token_.type_, t)

/-- `Tokenizer::ConsumeToken` (declared at header line 95).  Modelled from
the spec: advances past the previously peeked token.  Consuming a
`NEWLINE` performs the line bookkeeping: the line number grows by one, the
current line start moves past the newline, and the indent measure is reset
to the `-1` sentinel. -/
def Tokenizer.ConsumeToken (t : Tokenizer) : Tokenizer :=
  if t.token_.type_ = .NEWLINE then
    { t with
      token_ := ⟨Token.Type.NONE, t.token_.end_, t.token_.end_⟩
      line_number_ := t.line_number_ + 1
      cur_line_ := t.token_.end_
      cur_indent_ := none }
  else { t with token_ := ⟨Token.Type.NONE, t.token_.end_, t.token_.end_⟩ }

/-- Text of the current token's span. -/
def Tokenizer.tokenString (t : Tokenizer) : String :=
  String.mk ((t.buf.drop t.token_.pos_).take (t.token_.end_ - t.token_.pos_))

/-- Modelled from the spec: `Tokenizer::SkipWhitespace` (declared at header
line 86) discards insignificant characters at the cursor when no token is
pending. -/
def Tokenizer.SkipWhitespace (t : Tokenizer) : Tokenizer :=
  if t.token_.type_ = .NONE then
    let r := skipWS t.makefile_flavor_ (t.buf.drop t.cur_)
    { t with
      cur_ := t.cur_ + r.1
      line_number_ := t.line_number_ + r.2.1
      cur_line_ := match r.2.2 with
        | none => t.cur_line_
        | some k => t.cur_ + k }
  else t

/-- Modelled from the spec: `Tokenizer::ReadIdent` (declared at header line
90) returns the text of the current token and consumes it when it is an
identifier, and fails otherwise. -/
def Tokenizer.ReadIdent (t : Tokenizer) : Option (String × Tokenizer) :=
  let p := t.PeekToken
  if p.1 = .IDENT then some (p.2.tokenString, p.2.ConsumeToken) else none

/-- Modelled from the spec: `Tokenizer::ExpectToken` (declared at header
line 88) consumes the next token when it has the expected type and
otherwise fails with an "expected foo, got bar" message. -/
def Tokenizer.ExpectToken (t : Tokenizer) (expected : Token.Type) : Except String Tokenizer :=
  let p := t.PeekToken
  if p.1 = expected then .ok p.2.ConsumeToken
  else .error (p.2.ErrorExpected expected.typeName).2

/-- Raw read of a value: `(text, consumed, lines crossed, newline seen)`.
Modelled from the spec: `read_to_newline` collects largely-unprocessed
text up to (and here, through) the terminating newline, treating
`$`-escaped newlines as insignificant line continuations. -/
def readValueAux : Nat → List Char → List Char × Nat × Nat × Bool
  | 0, _ => ([], 0, 0, false)
  | _ + 1, [] => ([], 0, 0, false)
  | fuel + 1, c :: rest =>
    if c = '\n' then ([], 1, 1, true)
    else if c = '$' && rest.head? = some '\n' then
      let r := readValueAux fuel rest.tail
      (r.1, r.2.1 + 2, r.2.2.1 + 1, r.2.2.2)
    else
      let r := readValueAux fuel rest
      (c :: r.1, r.2.1 + 1, r.2.2.1, r.2.2.2)

/-- Modelled from the spec: `Tokenizer::ReadToNewline` (declared at header
lines 91-92).  Leading spaces and tabs are skipped, the raw text of the
rest of the logical line is returned, and the terminating newline (when
present) is consumed with its line bookkeeping. -/
def Tokenizer.ReadToNewline (t : Tokenizer) : String × Tokenizer :=
  let lead := ((t.buf.drop t.cur_).takeWhile fun c => c = ' ' || c = '\t').length
  let i := t.cur_ + lead
  let r := readValueAux (t.buf.length + 1) (t.buf.drop i)
  let j := i + r.2.1
  (String.mk r.1,
   { t with
     cur_ := j
     line_number_ := t.line_number_ + r.2.2.1
     cur_line_ := if r.2.2.2 then j else t.cur_line_
     cur_indent_ := if r.2.2.2 then none else t.cur_indent_ })

/-- Modelled from the spec: `Tokenizer::Newline` (declared at header line
87) expects and consumes a `NEWLINE` token. -/
def Tokenizer.Newline (t : Tokenizer) : Except String Tokenizer :=
  t.ExpectToken .NEWLINE

/-!
External collaborators: the deferred-value representation (`EvalString`)
and the variable scope (`BindingEnv`).  Both are consumed, not defined, by
the parser sources; they are modelled from the spec (sections 3 and 6):
a deferred value is a sequence of literal-text and variable-reference
fragments with a pure expansion function, and a scope is a chain of
binding frames with lookup falling through to the parent.
-/

/-- One fragment of a deferred value. -/
inductive EvalFrag
  | lit (text : String)
  | varRef (name : String)
deriving DecidableEq, Repr

/-- `EvalString`: a deferred value, a sequence of fragments kept
unexpanded until resolved against a concrete scope. -/
structure EvalString where
  parsed_ : List EvalFrag
deriving DecidableEq, Repr

/-- Association-list lookup inside one binding frame. -/
def lookupPairs : List (String × String) → String → Option String
  | [], _ => none
  | (k, v) :: rest, key => if k = key then some v else lookupPairs rest key

/-- `BindingEnv`: a chain of variable-binding frames; lookup falls through
to the parent.  Modelled from the spec (section 3, "Scope"). -/
inductive BindingEnv
  | root (bindings : List (String × String))
  | child (bindings : List (String × String)) (parent : BindingEnv)
deriving DecidableEq, Repr

/-- Look a variable up in the innermost frame, falling through to the
parent chain. -/
def BindingEnv.LookupVariable : BindingEnv → String → Option String
  | .root bs, key => lookupPairs bs key
  | .child bs parent, key =>
    match lookupPairs bs key with
    | some v => some v
    | none => parent.LookupVariable key

/-- Define a variable in the innermost frame (shadowing any older
binding of the same name there). -/
def BindingEnv.AddBinding (env : BindingEnv) (key value : String) : BindingEnv :=
  match env with
  | .root bs => .root ((key, value) :: bs)
  | .child bs parent => .child ((key, value) :: bs) parent

/-- Expand one fragment against a scope: a literal is itself, a variable
reference is the looked-up value (empty when unbound). -/
def EvalFrag.eval (env : BindingEnv) : EvalFrag → String
  | .lit text => text
  | .varRef name => (env.LookupVariable name).getD ""

/-- Expand a deferred value against a scope. -/
def EvalString.Evaluate (e : EvalString) (env : BindingEnv) : String :=
  e.parsed_.foldl (fun acc f => acc ++ f.eval env) ""

/-- Flush the pending literal characters (held in reverse) into a
fragment list head. -/
def flushLit (acc : List Char) (rest : List EvalFrag) : List EvalFrag :=
  if acc.isEmpty then rest else .lit (String.mk acc.reverse) :: rest

/-- Modelled from the spec: split raw value text into literal and
`$name` variable-reference fragments (the grammar of `$`-references
beyond simple names is owned by the collaborator and not claimed here);
a `$` starting no name stays literal text. -/
def lexEvalAux : Nat → List Char → List Char → List EvalFrag
  | 0, acc, _ => flushLit acc []
  | _ + 1, acc, [] => flushLit acc []
  | fuel + 1, acc, c :: rest =>
    if c = '$' then
      let name := rest.takeWhile isVarNameChar
      if name.isEmpty then lexEvalAux fuel (c :: acc) rest
      else flushLit acc (.varRef (String.mk name) :: lexEvalAux fuel [] (rest.drop name.length))
    else lexEvalAux fuel (c :: acc) rest

/-- Parse raw value text into a deferred value. -/
def lexEval (text : List Char) : List EvalFrag :=
  lexEvalAux (text.length + 1) [] text

/-- A parsed rule: its name and its body bindings, each kept as an
unexpanded deferred value in the rule's own scope. -/
structure Rule where
  name : String
  bindings : List (String × EvalString)
deriving DecidableEq, Repr

/-- A registered build edge: the three input lists are kept distinct, as
handed to `add_edge(outputs, rule_name, inputs, implicit_inputs,
order_only_inputs, local_scope)` (spec section 6). -/
structure Edge where
  outputs : List String
  rule_name : String
  inputs : List String
  implicit_deps : List String
  order_only_deps : List String
  bindings : List (String × EvalString)
deriving DecidableEq, Repr

/-- The external build-graph model (`State`), modelled from the spec
(section 6): it owns rules, edges, default targets and pools, appended in
source order. -/
structure State where
  rules : List Rule
  edges : List Edge
  defaults : List String
  pools : List (String × String)
deriving DecidableEq, Repr

/-- The empty graph. -/
def State.empty : State := ⟨[], [], [], []⟩

/-- First defined rule of a given name. -/
def State.findRule (st : State) (name : String) : Option Rule :=
  st.rules.find? fun r => r.name = name

/-- `ManifestParser::FileReader` (header lines 127-130): the injected
read-file capability; `none` is a read failure. -/
def FileReader : Type := String → Option String

/-- `ManifestParser::ParseLetKey` (declared at header line 148).  Modelled
from the spec: reads the `key =` half of a binding. -/
def ManifestParser.ParseLetKey (t : Tokenizer) : Except String (String × Tokenizer) :=
  match t.ReadIdent with
  | none => .error ((t.PeekToken).2.ErrorExpected "variable name").2
  | some (key, t1) =>
    match t1.ExpectToken .EQUALS with
    | .ok t2 => .ok (key, t2)
    | .error e => .error e

/-- `ManifestParser::ParseLetValue` (declared at header line 151).
Modelled from the spec: reads the value half of a binding, parsing it
into an `EvalString` ready for expansion, without expanding anything. -/
def ManifestParser.ParseLetValue (t : Tokenizer) : EvalString × Tokenizer :=
  let r := t.ReadToNewline
  (⟨lexEval r.1.toList⟩, r.2)

/-- `ManifestParser::ParseLet` (declared at header line 140).  Modelled
from the spec: parses a `key = value` statement, eagerly expanding `$`
references in the value with the current scope, yielding a concrete
string. -/
def ManifestParser.ParseLet (env : BindingEnv) (t : Tokenizer) :
    Except String (String × String × Tokenizer) :=
  match ManifestParser.ParseLetKey t with
  | .error e => .error e
  | .ok (key, t1) =>
    let r := ManifestParser.ParseLetValue t1
    .ok (key, r.1.Evaluate env, r.2)

/-- Message of the modelled resource limit on the statement loop and on
include recursion (the spec, section 9, leaves inclusion depth unguarded
up to resource exhaustion). -/
def fuelErrMsg : String := "manifest parsing exceeded the resource limit"

/-- Modelled from the spec: the body-binding loop shared by `rule` bodies,
`build` bodies and pools: `key = value` lines read as deferred values
until the dedent (or end of file) that closes the body. -/
def parseBindings : Nat → List (String × EvalString) → Tokenizer →
    Except String (List (String × EvalString) × Tokenizer)
  | 0, _, _ => .error fuelErrMsg
  | fuel + 1, acc, t =>
    let p := t.PeekToken
    match p.1 with
    | .IDENT =>
      match ManifestParser.ParseLetKey p.2 with
      | .error e => .error e
      | .ok (key, t1) =>
        let r := ManifestParser.ParseLetValue t1
        parseBindings fuel (acc ++ [(key, r.1)]) r.2
    | .NEWLINE => parseBindings fuel acc p.2.ConsumeToken
    | .OUTDENT => .ok (acc, p.2.ConsumeToken)
    | .TEOF => .ok (acc, p.2)
    | _ => .error (p.2.ErrorExpected "variable binding").2

/-- Modelled from the spec: read a list of path identifiers, stopping (and
leaving the stop token pending) at any of the given stop types. -/
def readPaths (stops : List Token.Type) : Nat → List String → Tokenizer →
    Except String (List String × Token.Type × Tokenizer)
  | 0, _, _ => .error fuelErrMsg
  | fuel + 1, acc, t =>
    let p := t.PeekToken
    match p.1 with
    | .IDENT => readPaths stops fuel (acc ++ [p.2.tokenString]) p.2.ConsumeToken
    | ty => if stops.contains ty then .ok (acc, ty, p.2) else .error (p.2.ErrorExpected "path").2

/-- Accept the newline ending a statement line, or end of file. -/
def Tokenizer.expectLineEnd (t : Tokenizer) : Except String Tokenizer :=
  let p := t.PeekToken
  match p.1 with
  | .NEWLINE => .ok p.2.ConsumeToken
  | .TEOF => .ok p.2
  | _ => .error (p.2.ErrorExpected "newline").2

/-- `ManifestParser::ParseRule` (declared at header line 137).  Modelled
from the spec: `"rule" IDENT NEWLINE INDENT { binding } OUTDENT`, each
body binding stored as a deferred value in the rule's scope; the rule is
registered with the graph when its body is complete. -/
def ManifestParser.ParseRule (st : State) (t : Tokenizer) : Except String (State × Tokenizer) :=
  match t.ReadIdent with
  | none => .error ((t.PeekToken).2.ErrorExpected "rule name").2
  | some (name, t1) =>
    match t1.ExpectToken .NEWLINE with
    | .error e => .error e
    | .ok t2 =>
      match t2.ExpectToken .INDENT with
      | .error e => .error e
      | .ok t3 =>
        match parseBindings (t3.buf.length + 1) [] t3 with
        | .error e => .error e
        | .ok (bs, t4) => .ok ({ st with rules := st.rules ++ [⟨name, bs⟩] }, t4)

/-- Modelled from the spec: the optional indented block of edge-local
bindings after a `build` line. -/
def parseEdgeBindings (t : Tokenizer) :
    Except String (List (String × EvalString) × Tokenizer) :=
  let p := t.PeekToken
  match p.1 with
  | .INDENT => parseBindings (t.buf.length + 1) [] p.2.ConsumeToken
  | _ => .ok ([], p.2)

/-- `ManifestParser::ParseEdge` (declared at header line 141).  Modelled
from the spec: `"build" idents ":" IDENT idents ["|" idents] ["||"
idents] NEWLINE [body]`; identifiers before any pipe are explicit inputs,
after a single `|` implicit inputs, after `||` order-only inputs; the
named rule must already exist; the finished edge is registered with the
graph with the three input lists kept distinct. -/
def ManifestParser.ParseEdge (st : State) (t : Tokenizer) : Except String (State × Tokenizer) :=
  match readPaths [.COLON] (t.buf.length + 1) [] t with
  | .error e => .error e
  | .ok (outs, _, t1) =>
  match t1.ExpectToken .COLON with
  | .error e => .error e
  | .ok t2 =>
  match t2.ReadIdent with
  | none => .error ((t2.PeekToken).2.ErrorExpected "build command name").2
  | some (rule_name, t3) =>
  match st.findRule rule_name with
  | none => .error (t3.Error ("unknown build rule '" ++ rule_name ++ "'")).2
  | some _ =>
  match readPaths [.PIPE, .PIPE2, .NEWLINE, .TEOF] (t3.buf.length + 1) [] t3 with
  | .error e => .error e
  | .ok (ins, ty1, t4) =>
  match (if ty1 = .PIPE then readPaths [.PIPE2, .NEWLINE, .TEOF] (t4.buf.length + 1) [] t4.ConsumeToken
         else .ok ([], ty1, t4)) with
  | .error e => .error e
  | .ok (implicit_deps, ty2, t5) =>
  match (if ty2 = .PIPE2 then readPaths [.NEWLINE, .TEOF] (t5.buf.length + 1) [] t5.ConsumeToken
         else .ok ([], ty2, t5)) with
  | .error e => .error e
  | .ok (order_only_deps, _, t6) =>
  match t6.expectLineEnd with
  | .error e => .error e
  | .ok t7 =>
  match parseEdgeBindings t7 with
  | .error e => .error e
  | .ok (bs, t8) =>
    .ok ({ st with edges :=
            st.edges ++ [⟨outs, rule_name, ins, implicit_deps, order_only_deps, bs⟩] }, t8)

/-- Modelled from the spec: `default` marks one or more target idents as
default build targets. -/
def ManifestParser.ParseDefault (st : State) (t : Tokenizer) :
    Except String (State × Tokenizer) :=
  match readPaths [.NEWLINE, .TEOF] (t.buf.length + 1) [] t with
  | .error e => .error e
  | .ok (targets, _, t1) =>
    match t1.expectLineEnd with
    | .error e => .error e
    | .ok t2 => .ok ({ st with defaults := st.defaults ++ targets }, t2)

/-- Modelled from the spec: `pool` defines a named pool with an indented
`depth = N` binding. -/
def ManifestParser.ParsePool (st : State) (t : Tokenizer) :
    Except String (State × Tokenizer) :=
  match t.ReadIdent with
  | none => .error ((t.PeekToken).2.ErrorExpected "pool name").2
  | some (name, t1) =>
  match t1.ExpectToken .NEWLINE with
  | .error e => .error e
  | .ok t2 =>
  match t2.ExpectToken .INDENT with
  | .error e => .error e
  | .ok t3 =>
  match t3.ReadIdent with
  | none => .error ((t3.PeekToken).2.ErrorExpected "depth").2
  | some (key, t4) =>
  if key = "depth" then
    match t4.ExpectToken .EQUALS with
    | .error e => .error e
    | .ok t5 =>
      let r := t5.ReadToNewline
      let p := r.2.PeekToken
      let t6 := if p.1 = .OUTDENT then p.2.ConsumeToken else p.2
      .ok ({ st with pools := st.pools ++ [(name, r.1)] }, t6)
  else .error (t4.Error "expected depth").2

/-- Result of processing one top-level statement: the dispatch loop is
done (end of file), continues with mutated collaborators, or fails with
the collaborators as already mutated (no rollback). -/
inductive StmtResult
  | done (t : Tokenizer)
  | next (st : State) (env : BindingEnv) (t : Tokenizer)
  | fail (e : String) (st : State) (env : BindingEnv) (t : Tokenizer)
deriving Repr

/-- `ManifestParser::ParseFileInclude` (declared at header line 144).
Modelled from the spec: reads the path, resolves it through the injected
read-file capability (failure is fatal to the statement), and parses the
sub-file recursively — in a fresh child scope for `subninja`, or reusing
the current scope for `include`.  On return from `subninja` the includer
keeps its own scope; graph mutations always persist. -/
def ManifestParser.ParseFileInclude
    (sub : State → BindingEnv → Tokenizer → Option String × State × BindingEnv × Tokenizer)
    (file_reader : FileReader) (new_scope : Bool)
    (st : State) (env : BindingEnv) (t : Tokenizer) : StmtResult :=
  match t.ReadIdent with
  | none => .fail ((t.PeekToken).2.ErrorExpected "path to ninja file").2 st env t
  | some (path, t1) =>
  match t1.expectLineEnd with
  | .error e => .fail e st env t1
  | .ok t2 =>
  match file_reader path with
  | none => .fail (t2.Error ("loading '" ++ path ++ "': file not found")).2 st env t2
  | some contents =>
    let subT := Tokenizer.init.Start contents.toList
    let subEnv := if new_scope then BindingEnv.child [] env else env
    let r := sub st subEnv subT
    let env' := if new_scope then env else r.2.2.1
    match r.1 with
    | some e => .fail e r.2.1 env' t2
    | none => .next r.2.1 env' t2

/-- Modelled from the spec: one round of the dispatch loop (section 4.4):
skip blank lines, peek the next significant token; end of file succeeds;
otherwise dispatch on the leading identifier's literal text, treating an
unrecognized identifier as a top-level `key = value` binding whose value
is expanded immediately against the current scope.  `sub` is the
recursive entry used for included files. -/
def parseStmtWith
    (sub : State → BindingEnv → Tokenizer → Option String × State × BindingEnv × Tokenizer)
    (file_reader : FileReader)
    (st : State) (env : BindingEnv) (t : Tokenizer) : StmtResult :=
  let p := t.PeekToken
  match p.1 with
  | .TEOF => .done p.2
  | .NEWLINE => .next st env p.2.ConsumeToken
  | .IDENT =>
    let s := p.2.tokenString
    if s = "rule" then
      match ManifestParser.ParseRule st p.2.ConsumeToken with
      | .ok (st', t') => .next st' env t'
      | .error e => .fail e st env t
    else if s = "build" then
      match ManifestParser.ParseEdge st p.2.ConsumeToken with
      | .ok (st', t') => .next st' env t'
      | .error e => .fail e st env t
    else if s = "default" then
      match ManifestParser.ParseDefault st p.2.ConsumeToken with
      | .ok (st', t') => .next st' env t'
      | .error e => .fail e st env t
    else if s = "pool" then
      match ManifestParser.ParsePool st p.2.ConsumeToken with
      | .ok (st', t') => .next st' env t'
      | .error e => .fail e st env t
    else if s = "subninja" then
      ManifestParser.ParseFileInclude sub file_reader true st env p.2.ConsumeToken
    else if s = "include" then
      ManifestParser.ParseFileInclude sub file_reader false st env p.2.ConsumeToken
    else
      match ManifestParser.ParseLet env p.2 with
      | .ok (key, value, t') => .next st (env.AddBinding key value) t'
      | .error e => .fail e st env t
  | _ => .fail (p.2.ErrorExpected "statement").2 st env t

/-- Modelled from the spec: the statement dispatch loop.  The first error
anywhere halts parsing and is returned together with the collaborators
exactly as already mutated (no rollback, no error recovery); running out
of fuel models the unguarded-resource-limit behavior of deep inclusion. -/
def parseStmts : Nat → FileReader → State → BindingEnv → Tokenizer →
    Option String × State × BindingEnv × Tokenizer
  | 0, _, st, env, t => (some fuelErrMsg, st, env, t)
  | fuel + 1, file_reader, st, env, t =>
    match parseStmtWith (parseStmts fuel file_reader) file_reader st env t with
    | .done t' => (none, st, env, t')
    | .next st' env' t' => parseStmts fuel file_reader st' env' t'
    | .fail e st' env' t' => (some e, st', env', t')

/-- One top-level statement step, at a given recursion budget for the
files it may include. -/
def parseStmt (fuel : Nat) (file_reader : FileReader)
    (st : State) (env : BindingEnv) (t : Tokenizer) : StmtResult :=
  parseStmtWith (parseStmts fuel file_reader) file_reader st env t

/-- `ManifestParser::Parse` (declared at header line 135).  Modelled from
the spec: parses an in-memory buffer against the injected collaborators,
returning the first error (if any) and the mutated graph and scope. -/
def ManifestParser.Parse (file_reader : FileReader) (input : String)
    (st : State) (env : BindingEnv) : Option String × State × BindingEnv :=
  let t := Tokenizer.init.Start input.toList
  let r := parseStmts (input.toList.length + 1) file_reader st env t
  (r.1, r.2.1, r.2.2.1)

/-- `MakefileParser` (header lines 113-120): the dependency-file parser's
output: one target and its ordered, duplicate-preserving input list. -/
structure MakefileParser where
  tokenizer_ : Tokenizer
  out_ : String
  ins_ : List String
deriving Repr

/-- `MakefileParser::Parse` (declared at header line 115).  Modelled from
the spec (section 4.3): switch the lexer to dependency-file flavor, read
one identifier (the output), expect `:`, then read identifiers as
dependencies until a `NEWLINE` or `TEOF` token, line continuations being
consumed transparently as whitespace. -/
def MakefileParser.Parse (input : String) : Option String × MakefileParser :=
  let t := (Tokenizer.init.SetMakefileFlavor).Start input.toList
  match t.ReadIdent with
  | none => (some ((t.PeekToken).2.ErrorExpected "makefile target").2,
             ⟨(t.PeekToken).2, "", []⟩)
  | some (out, t1) =>
  match t1.ExpectToken .COLON with
  | .error e => (some e, ⟨t1, out, []⟩)
  | .ok t2 =>
  match readPaths [.NEWLINE, .TEOF] (t2.buf.length + 1) [] t2 with
  | .error e => (some e, ⟨t2, out, []⟩)
  | .ok (ins, _, t3) => (none, ⟨t3, out, ins⟩)

/-!
Auxiliary definitions used by the verification: a decidable
characterization of whitespace/comment-only buffers, the tokenizer's
operation alphabet (for stating invariants over every reachable state),
the chain of successfully processed statements (for the error-locality
property), and the concrete fixtures of the spec's examples.
-/

def blankOnly : Bool → List Char → Bool
  | _, [] => true
  | inComment, c :: rest =>
    if c = '\n' then blankOnly false rest
    else if inComment then blankOnly true rest
    else if c = ' ' || c = '\t' then blankOnly false rest
    else if c = '#' then blankOnly true rest
    else false

inductive StmtSteps (file_reader : FileReader) :
    State × BindingEnv × Tokenizer → State × BindingEnv × Tokenizer → Prop
  | refl (c : State × BindingEnv × Tokenizer) : StmtSteps file_reader c c
  | step (f : Nat) (c c' c'' : State × BindingEnv × Tokenizer) :
      parseStmt f file_reader c.1 c.2.1 c.2.2 = .next c'.1 c'.2.1 c'.2.2 →
      StmtSteps file_reader c' c'' → StmtSteps file_reader c c''

inductive TokOp
  | setMakefileFlavor
  | start (buf : List Char)
  | skipWhitespace
  | peek
  | consume
  | readIdent
  | expectToken (ty : Token.Type)
  | readToNewline
deriving DecidableEq, Repr

def TokOp.isStart : TokOp → Bool
  | .start _ => true
  | _ => false

def Tokenizer.applyOp (t : Tokenizer) : TokOp → Tokenizer
  | .setMakefileFlavor => t.SetMakefileFlavor
  | .start buf => t.Start buf
  | .skipWhitespace => t.SkipWhitespace
  | .peek => t.PeekToken.2
  | .consume => t.ConsumeToken
  | .readIdent =>
    match t.ReadIdent with
    | some (_, t') => t'
    | none => t.PeekToken.2
  | .expectToken ty =>
    match t.ExpectToken ty with
    | .ok t' => t'
    | .error _ => t.PeekToken.2
  | .readToNewline => t.ReadToNewline.2

def Tokenizer.applyOps (t : Tokenizer) (ops : List TokOp) : Tokenizer :=
  ops.foldl Tokenizer.applyOp t


/-- File reader serving the sub-file of the scope-isolation example:
`sub.ninja` defines `x = inner`. -/
def subninjaFileReader : FileReader :=
  fun p => if p = "sub.ninja" then some "x = inner\n" else none

/-- File reader with no files, for inputs without inclusions. -/
def noFileReader : FileReader := fun _ => none

/-- The spec's error-locality example: two good statements, a blank line,
then a bad statement. -/
def errorExample : String := "rule foo\n  command = echo hi\nbuild out : foo in\n\nbadstmt\n"

/-- Tokenizer freshly started on the error-locality example. -/
def errorExampleTokenizer : Tokenizer := Tokenizer.init.Start errorExample.toList

/-- Statement-loop budget for the error-locality example. -/
def errorExampleFuel : Nat := errorExample.toList.length + 1

/-- Full run of the parser on the error-locality example. -/
def errorExampleRun : Option String × State × BindingEnv × Tokenizer :=
  parseStmts errorExampleFuel noFileReader State.empty (BindingEnv.root []) errorExampleTokenizer

/-!
Supporting lemmas.
-/

theorem empty_append_str (s : String) : "" ++ s = s := by
  cases s
  show String.mk ([] ++ _) = _
  rw [List.nil_append]

theorem lookup_AddBinding_same (env : BindingEnv) (k v : String) :
    (env.AddBinding k v).LookupVariable k = some v := by
  cases env <;> simp [BindingEnv.AddBinding, BindingEnv.LookupVariable, lookupPairs]

-- C1 candidate

theorem length_takeWhile_le (p : Char → Bool) (l : List Char) :
    (l.takeWhile p).length ≤ l.length := by
  induction l with
  | nil => simp
  | cons c rest ih =>
    rw [List.takeWhile_cons]
    by_cases h : p c = true
    · simp [h]
      omega
    · simp [h]

theorem skipWSAux_le (flavor : Bool) :
    ∀ (fuel : Nat) (inC : Bool) (l : List Char),
      (skipWSAux flavor fuel inC l).1 ≤ l.length := by
  intro fuel
  induction fuel with
  | zero => intro inC l; simp [skipWSAux]
  | succ fuel ih =>
    intro inC l
    match l with
    | [] => simp [skipWSAux]
    | c :: rest =>
      rw [skipWSAux]
      by_cases h1 : c = '\n'
      · simp [h1]
      by_cases h2 : inC
      · have := ih true rest
        simp [h1, h2, wsBump]; omega
      by_cases h3 : (c = ' ' || c = '\t') = true
      · have := ih false rest
        simp [h1, h2, h3, wsBump]; omega
      by_cases h4 : c = '#'
      · have := ih true rest
        simp [h1, h2, h3, h4, wsBump]; omega
      by_cases h5 : (c = contChar flavor && rest.head? = some '\n') = true
      · have h5b : rest.head? = some '\n' := by
          have := Bool.and_eq_true_iff.mp h5
          exact of_decide_eq_true this.2
        cases rest with
        | nil => simp at h5b
        | cons r0 rest' =>
          have := ih false rest'
          rw [if_neg h1, if_neg h2, if_neg (by simpa using h3), if_neg h4, if_pos h5]
          simp only [List.tail_cons, List.length_cons]
          omega
      · simp [h1, h2, h3, h4, h5]

theorem skipWSAux_blank (flavor : Bool) :
    ∀ (fuel : Nat) (inC : Bool) (l : List Char), l.length < fuel →
      blankOnly inC l = true →
      (skipWSAux flavor fuel inC l).2.1 = 0 ∧
      (skipWSAux flavor fuel inC l).2.2 = none ∧
      (l.drop (skipWSAux flavor fuel inC l).1 = [] ∨
        ((l.drop (skipWSAux flavor fuel inC l).1).head? = some '\n' ∧
          blankOnly false (l.drop ((skipWSAux flavor fuel inC l).1 + 1)) = true)) := by
  intro fuel
  induction fuel with
  | zero => intro inC l hlen hb; omega
  | succ fuel ih =>
    intro inC l hlen hb
    match l with
    | [] => simp [skipWSAux]
    | c :: rest =>
      rw [skipWSAux]
      by_cases h1 : c = '\n'
      · refine ⟨by simp [h1], by simp [h1], Or.inr ⟨by simp [h1], ?_⟩⟩
        simp only [h1, List.drop_succ_cons, List.drop_zero]
        rw [blankOnly, if_pos h1] at hb
        exact hb
      by_cases h2 : inC
      · have hb' : blankOnly true rest = true := by
          rw [blankOnly, if_neg h1, if_pos h2] at hb; exact hb
        have hlen' : rest.length < fuel := by simp at hlen; omega
        obtain ⟨ha, hn, hrest⟩ := ih true rest hlen' hb'
        refine ⟨by simp [h1, h2, wsBump, ha], by simp [h1, h2, wsBump, hn], ?_⟩
        simp only [h1, h2, wsBump, if_neg, if_pos, List.drop_succ_cons]
        simpa [wsBump, h1, h2] using hrest
      by_cases h3 : (c = ' ' || c = '\t') = true
      · have hb' : blankOnly false rest = true := by
          rw [blankOnly, if_neg h1, if_neg h2, if_pos h3] at hb; exact hb
        have hlen' : rest.length < fuel := by simp at hlen; omega
        obtain ⟨ha, hn, hrest⟩ := ih false rest hlen' hb'
        refine ⟨by simp [h1, h2, h3, wsBump, ha], by simp [h1, h2, h3, wsBump, hn], ?_⟩
        simpa [wsBump, h1, h2, h3] using hrest
      by_cases h4 : c = '#'
      · have hb' : blankOnly true rest = true := by
          rw [blankOnly, if_neg h1, if_neg h2, if_neg h3, if_pos h4] at hb; exact hb
        have hlen' : rest.length < fuel := by simp at hlen; omega
        obtain ⟨ha, hn, hrest⟩ := ih true rest hlen' hb'
        refine ⟨by simp [h1, h2, h3, h4, wsBump, ha], by simp [h1, h2, h3, h4, wsBump, hn], ?_⟩
        simpa [wsBump, h1, h2, h3, h4] using hrest
      · exfalso
        rw [blankOnly, if_neg h1, if_neg h2, if_neg h3, if_neg h4] at hb
        exact Bool.false_ne_true hb

theorem skipWS_blank (flavor : Bool) (l : List Char) (hb : blankOnly false l = true) :
    (skipWS flavor l).2.1 = 0 ∧ (skipWS flavor l).2.2 = none ∧
    (l.drop (skipWS flavor l).1 = [] ∨
      ((l.drop (skipWS flavor l).1).head? = some '\n' ∧
        blankOnly false (l.drop ((skipWS flavor l).1 + 1)) = true)) :=
  skipWSAux_blank flavor (l.length + 1) false l (by omega) hb

theorem skipWS_le (flavor : Bool) (l : List Char) : (skipWS flavor l).1 ≤ l.length :=
  skipWSAux_le flavor (l.length + 1) false l

theorem getElem?_eq_head?_drop (l : List Char) (n : Nat) : l[n]? = (l.drop n).head? :=
  (List.head?_drop l n).symm

theorem PeekToken_blank (t : Tokenizer)
    (hb : blankOnly false (t.buf.drop t.cur_) = true)
    (htok : t.token_.type_ = .NONE) :
    (t.PeekToken.1 = .TEOF) ∨
    (t.PeekToken.1 = .NEWLINE ∧
      t.PeekToken.2.ConsumeToken.buf = t.buf ∧
      t.PeekToken.2.ConsumeToken.token_.type_ = .NONE ∧
      t.cur_ < t.PeekToken.2.ConsumeToken.cur_ ∧
      t.PeekToken.2.ConsumeToken.cur_ ≤ t.buf.length ∧
      blankOnly false (t.buf.drop t.PeekToken.2.ConsumeToken.cur_) = true) := by
  have hpeek : t.PeekToken = t.scanToken := by
    rw [Tokenizer.PeekToken, if_pos htok]
  obtain ⟨hdln, hls, hrest⟩ := skipWS_blank t.makefile_flavor_ (t.buf.drop t.cur_) hb
  rcases hrest with hempty | ⟨hhead, hblank⟩
  · left
    have hnone : t.buf[t.cur_ + (skipWS t.makefile_flavor_ (t.buf.drop t.cur_)).1]? = none := by
      rw [getElem?_eq_head?_drop, ← List.drop_drop, hempty]
      rfl
    rw [hpeek, Tokenizer.scanToken]
    simp only [hnone]
  · right
    have hsome : t.buf[t.cur_ + (skipWS t.makefile_flavor_ (t.buf.drop t.cur_)).1]? = some '\n' := by
      rw [getElem?_eq_head?_drop, ← List.drop_drop]
      exact hhead
    have hlt : t.cur_ + (skipWS t.makefile_flavor_ (t.buf.drop t.cur_)).1 < t.buf.length :=
      (List.getElem?_eq_some.mp hsome).1
    have hscan : t.scanToken =
        (.NEWLINE,
         { t with
           cur_ := t.cur_ + (skipWS t.makefile_flavor_ (t.buf.drop t.cur_)).1 + 1
           line_number_ := t.line_number_ + (skipWS t.makefile_flavor_ (t.buf.drop t.cur_)).2.1
           cur_line_ := match (skipWS t.makefile_flavor_ (t.buf.drop t.cur_)).2.2 with
             | none => t.cur_line_
             | some k => t.cur_ + k
           token_ := ⟨.NEWLINE,
             t.cur_ + (skipWS t.makefile_flavor_ (t.buf.drop t.cur_)).1,
             t.cur_ + (skipWS t.makefile_flavor_ (t.buf.drop t.cur_)).1 + 1⟩ }) := by
      rw [Tokenizer.scanToken]
      simp only [hsome, Tokenizer.setTok]
      rfl
    rw [hpeek, hscan]
    refine ⟨rfl, rfl, rfl, ?_, ?_, ?_⟩
    · simp [Tokenizer.ConsumeToken]
      omega
    · simp [Tokenizer.ConsumeToken]
      omega
    · simp only [Tokenizer.ConsumeToken, if_true]
      show blankOnly false
        (t.buf.drop (t.cur_ + (skipWS t.makefile_flavor_ (t.buf.drop t.cur_)).1 + 1)) = true
      rw [List.drop_drop] at hblank
      rw [Nat.add_assoc]
      exact hblank

theorem parseStmts_blank (file_reader : FileReader) :
    ∀ (fuel : Nat) (st : State) (env : BindingEnv) (t : Tokenizer),
      blankOnly false (t.buf.drop t.cur_) = true →
      t.token_.type_ = .NONE →
      t.buf.length - t.cur_ < fuel →
      (parseStmts fuel file_reader st env t).1 = none ∧
      (parseStmts fuel file_reader st env t).2.1 = st ∧
      (parseStmts fuel file_reader st env t).2.2.1 = env := by
  intro fuel
  induction fuel with
  | zero => intro st env t hb htok hlen; omega
  | succ fuel ih =>
    intro st env t hb htok hlen
    rcases PeekToken_blank t hb htok with hteof | ⟨hnl, hbuf2, htok2, hlt, hle, hb2⟩
    · simp only [parseStmts, parseStmtWith, hteof]
      exact ⟨trivial, trivial, trivial⟩
    · simp only [parseStmts, parseStmtWith, hnl]
      refine ih st env t.PeekToken.2.ConsumeToken ?_ htok2 ?_
      · rw [hbuf2]; exact hb2
      · rw [hbuf2]; omega

theorem readValueAux_le :
    ∀ (fuel : Nat) (l : List Char), (readValueAux fuel l).2.1 ≤ l.length := by
  intro fuel
  induction fuel with
  | zero => intro l; simp [readValueAux]
  | succ fuel ih =>
    intro l
    match l with
    | [] => simp [readValueAux]
    | c :: rest =>
      rw [readValueAux]
      by_cases h1 : c = '\n'
      · simp [h1]
      by_cases h2 : (c = '$' && rest.head? = some '\n') = true
      · have h2b : rest.head? = some '\n' := of_decide_eq_true (Bool.and_eq_true_iff.mp h2).2
        cases rest with
        | nil => simp at h2b
        | cons r0 rest' =>
          have := ih rest'
          rw [if_neg h1, if_pos h2]
          simp only [List.tail_cons, List.length_cons]
          omega
      · have := ih rest
        rw [if_neg h1, if_neg h2]
        simp only [List.length_cons]
        omega

theorem scanFromChar_facts (t : Tokenizer) (c : Char) (i : Nat) (hi : i < t.buf.length) :
    (t.scanFromChar c i).2.buf = t.buf ∧
    (t.scanFromChar c i).2.makefile_flavor_ = t.makefile_flavor_ ∧
    (t.scanFromChar c i).2.cur_ ≤ t.buf.length ∧
    (t.scanFromChar c i).2.line_number_ = t.line_number_ := by
  have hid : identRunLength (t.buf.drop i) ≤ t.buf.length - i := by
    have h := length_takeWhile_le isIdentChar (t.buf.drop i)
    rw [identRunLength]
    simpa [List.length_drop] using h
  rw [Tokenizer.scanFromChar]
  by_cases h1 : isIdentChar c = true
  · rw [if_pos h1]
    exact ⟨rfl, rfl, by show i + identRunLength (t.buf.drop i) ≤ t.buf.length; omega, rfl⟩
  rw [if_neg h1]
  by_cases h2 : c = ':'
  · rw [if_pos h2]
    exact ⟨rfl, rfl, by show i + 1 ≤ t.buf.length; omega, rfl⟩
  rw [if_neg h2]
  by_cases h3 : c = '='
  · rw [if_pos h3]
    exact ⟨rfl, rfl, by show i + 1 ≤ t.buf.length; omega, rfl⟩
  rw [if_neg h3]
  by_cases h4 : c = '|'
  · rw [if_pos h4]
    by_cases h5 : t.buf[i + 1]? = some '|'
    · have h6 : i + 1 < t.buf.length := (List.getElem?_eq_some.mp h5).1
      rw [if_pos h5]
      exact ⟨rfl, rfl, by show i + 2 ≤ t.buf.length; omega, rfl⟩
    · rw [if_neg h5]
      exact ⟨rfl, rfl, by show i + 1 ≤ t.buf.length; omega, rfl⟩
  · rw [if_neg h4]
    exact ⟨rfl, rfl, by show i + 1 ≤ t.buf.length; omega, rfl⟩

theorem scanFromChar_goal (t t' : Tokenizer) (c : Char) (i : Nat)
    (hbuf : t'.buf = t.buf) (hflav : t'.makefile_flavor_ = t.makefile_flavor_)
    (hline : t.line_number_ ≤ t'.line_number_) (hi : i < t.buf.length) :
    (t'.scanFromChar c i).2.buf = t.buf ∧
    (t'.scanFromChar c i).2.makefile_flavor_ = t.makefile_flavor_ ∧
    (t.cur_ ≤ t.buf.length → (t'.scanFromChar c i).2.cur_ ≤ t.buf.length) ∧
    t.line_number_ ≤ (t'.scanFromChar c i).2.line_number_ := by
  obtain ⟨f1, f2, f3, f4⟩ := scanFromChar_facts t' c i (by rw [hbuf]; exact hi)
  rw [hbuf] at f1 f3
  rw [hflav] at f2
  exact ⟨f1, f2, fun _ => f3, le_of_le_of_eq hline f4.symm⟩

theorem scanToken_facts (t : Tokenizer) :
    t.scanToken.2.buf = t.buf ∧
    t.scanToken.2.makefile_flavor_ = t.makefile_flavor_ ∧
    (t.cur_ ≤ t.buf.length → t.scanToken.2.cur_ ≤ t.buf.length) ∧
    t.line_number_ ≤ t.scanToken.2.line_number_ := by
  have hskip := skipWS_le t.makefile_flavor_ (t.buf.drop t.cur_)
  rw [List.length_drop] at hskip
  simp only [Tokenizer.scanToken, Tokenizer.setTok]
  split
  · exact ⟨rfl, rfl, fun hc => by show t.cur_ + _ ≤ _; omega, Nat.le_add_right _ _⟩
  · rename_i c heq
    have hi : t.cur_ + (skipWS t.makefile_flavor_ (t.buf.drop t.cur_)).1 < t.buf.length := by
      have := (List.getElem?_eq_some.mp heq).1
      exact this
    split
    · exact ⟨rfl, rfl, fun hc => by show _ + _ + 1 ≤ _; omega, Nat.le_add_right _ _⟩
    · split
      · split
        · exact ⟨rfl, rfl, fun hc => by show t.cur_ + _ ≤ _; omega, Nat.le_add_right _ _⟩
        · split
          · exact ⟨rfl, rfl, fun hc => by show t.cur_ + _ ≤ _; omega, Nat.le_add_right _ _⟩
          · apply scanFromChar_goal
            · rfl
            · rfl
            · exact Nat.le_add_right _ _
            · exact hi
      · apply scanFromChar_goal
        · rfl
        · rfl
        · exact Nat.le_add_right _ _
        · exact hi

theorem PeekToken_facts (t : Tokenizer) :
    t.PeekToken.2.buf = t.buf ∧
    t.PeekToken.2.makefile_flavor_ = t.makefile_flavor_ ∧
    (t.cur_ ≤ t.buf.length → t.PeekToken.2.cur_ ≤ t.buf.length) ∧
    t.line_number_ ≤ t.PeekToken.2.line_number_ := by
  rw [Tokenizer.PeekToken]
  by_cases h : t.token_.type_ = .NONE
  · rw [if_pos h]; exact scanToken_facts t
  · rw [if_neg h]; exact ⟨rfl, rfl, fun hc => hc, Nat.le_refl _⟩

theorem ConsumeToken_facts (t : Tokenizer) :
    t.ConsumeToken.buf = t.buf ∧
    t.ConsumeToken.makefile_flavor_ = t.makefile_flavor_ ∧
    t.ConsumeToken.cur_ = t.cur_ ∧
    t.line_number_ ≤ t.ConsumeToken.line_number_ := by
  rw [Tokenizer.ConsumeToken]
  by_cases h : t.token_.type_ = .NEWLINE
  · rw [if_pos h]; exact ⟨rfl, rfl, rfl, Nat.le_add_right _ _⟩
  · rw [if_neg h]; exact ⟨rfl, rfl, rfl, Nat.le_refl _⟩

theorem ReadToNewline_facts (t : Tokenizer) :
    t.ReadToNewline.2.buf = t.buf ∧
    t.ReadToNewline.2.makefile_flavor_ = t.makefile_flavor_ ∧
    (t.cur_ ≤ t.buf.length → t.ReadToNewline.2.cur_ ≤ t.buf.length) ∧
    t.line_number_ ≤ t.ReadToNewline.2.line_number_ := by
  have hlead := length_takeWhile_le (fun c => c = ' ' || c = '\t') (t.buf.drop t.cur_)
  rw [List.length_drop] at hlead
  have hval := readValueAux_le (t.buf.length + 1)
    (t.buf.drop (t.cur_ + ((t.buf.drop t.cur_).takeWhile fun c => c = ' ' || c = '\t').length))
  rw [List.length_drop] at hval
  rw [Tokenizer.ReadToNewline]
  exact ⟨rfl, rfl, fun hc => by show t.cur_ + _ + _ ≤ _; omega, Nat.le_add_right _ _⟩

theorem SkipWhitespace_facts (t : Tokenizer) :
    t.SkipWhitespace.buf = t.buf ∧
    t.SkipWhitespace.makefile_flavor_ = t.makefile_flavor_ ∧
    (t.cur_ ≤ t.buf.length → t.SkipWhitespace.cur_ ≤ t.buf.length) ∧
    t.line_number_ ≤ t.SkipWhitespace.line_number_ := by
  have hskip := skipWS_le t.makefile_flavor_ (t.buf.drop t.cur_)
  rw [List.length_drop] at hskip
  rw [Tokenizer.SkipWhitespace]
  by_cases h : t.token_.type_ = .NONE
  · rw [if_pos h]
    exact ⟨rfl, rfl, fun hc => by show t.cur_ + _ ≤ _; omega, Nat.le_add_right _ _⟩
  · rw [if_neg h]
    exact ⟨rfl, rfl, fun hc => hc, Nat.le_refl _⟩

theorem applyOp_facts (t : Tokenizer) (op : TokOp) (hop : op.isStart = false) :
    (t.applyOp op).buf = t.buf ∧
    (t.cur_ ≤ t.buf.length → (t.applyOp op).cur_ ≤ t.buf.length) ∧
    t.line_number_ ≤ (t.applyOp op).line_number_ := by
  cases op with
  | setMakefileFlavor => exact ⟨rfl, fun hc => hc, Nat.le_refl _⟩
  | start buf => simp [TokOp.isStart] at hop
  | skipWhitespace =>
    obtain ⟨f1, _, f3, f4⟩ := SkipWhitespace_facts t
    exact ⟨f1, f3, f4⟩
  | peek =>
    obtain ⟨f1, _, f3, f4⟩ := PeekToken_facts t
    exact ⟨f1, f3, f4⟩
  | consume =>
    obtain ⟨f1, _, f3, f4⟩ := ConsumeToken_facts t
    exact ⟨f1, fun hc => le_of_eq_of_le f3 hc, f4⟩
  | readIdent =>
    obtain ⟨p1, _, p3, p4⟩ := PeekToken_facts t
    obtain ⟨c1, _, c3, c4⟩ := ConsumeToken_facts t.PeekToken.2
    by_cases h : t.PeekToken.1 = .IDENT
    · have hri : t.ReadIdent = some (t.PeekToken.2.tokenString, t.PeekToken.2.ConsumeToken) := by
        rw [Tokenizer.ReadIdent, if_pos h]
      simp only [Tokenizer.applyOp, hri]
      exact ⟨c1.trans p1, fun hc => by rw [c3]; exact p3 hc, le_trans p4 c4⟩
    · have hri : t.ReadIdent = none := by
        rw [Tokenizer.ReadIdent, if_neg h]
      simp only [Tokenizer.applyOp, hri]
      exact ⟨p1, p3, p4⟩
  | expectToken ty =>
    obtain ⟨p1, _, p3, p4⟩ := PeekToken_facts t
    obtain ⟨c1, _, c3, c4⟩ := ConsumeToken_facts t.PeekToken.2
    by_cases h : t.PeekToken.1 = ty
    · have hok : t.ExpectToken ty = .ok t.PeekToken.2.ConsumeToken := by
        rw [Tokenizer.ExpectToken, if_pos h]
      simp only [Tokenizer.applyOp, hok]
      exact ⟨c1.trans p1, fun hc => by rw [c3]; exact p3 hc, le_trans p4 c4⟩
    · have herr : t.ExpectToken ty = .error (t.PeekToken.2.ErrorExpected ty.typeName).2 := by
        rw [Tokenizer.ExpectToken, if_neg h]
      simp only [Tokenizer.applyOp, herr]
      exact ⟨p1, p3, p4⟩
  | readToNewline =>
    obtain ⟨f1, _, f3, f4⟩ := ReadToNewline_facts t
    exact ⟨f1, f3, f4⟩

theorem applyOp_flavor_eq (t : Tokenizer) (op : TokOp) (hop : op ≠ .setMakefileFlavor) :
    (t.applyOp op).makefile_flavor_ = t.makefile_flavor_ := by
  cases op with
  | setMakefileFlavor => exact absurd rfl hop
  | start buf => rfl
  | skipWhitespace => exact (SkipWhitespace_facts t).2.1
  | peek => exact (PeekToken_facts t).2.1
  | consume => exact (ConsumeToken_facts t).2.1
  | readIdent =>
    by_cases h : t.PeekToken.1 = .IDENT
    · have hri : t.ReadIdent = some (t.PeekToken.2.tokenString, t.PeekToken.2.ConsumeToken) := by
        rw [Tokenizer.ReadIdent, if_pos h]
      simp only [Tokenizer.applyOp, hri]
      exact (ConsumeToken_facts t.PeekToken.2).2.1.trans (PeekToken_facts t).2.1
    · have hri : t.ReadIdent = none := by
        rw [Tokenizer.ReadIdent, if_neg h]
      simp only [Tokenizer.applyOp, hri]
      exact (PeekToken_facts t).2.1
  | expectToken ty =>
    by_cases h : t.PeekToken.1 = ty
    · have hok : t.ExpectToken ty = .ok t.PeekToken.2.ConsumeToken := by
        rw [Tokenizer.ExpectToken, if_pos h]
      simp only [Tokenizer.applyOp, hok]
      exact (ConsumeToken_facts t.PeekToken.2).2.1.trans (PeekToken_facts t).2.1
    · have herr : t.ExpectToken ty = .error (t.PeekToken.2.ErrorExpected ty.typeName).2 := by
        rw [Tokenizer.ExpectToken, if_neg h]
      simp only [Tokenizer.applyOp, herr]
      exact (PeekToken_facts t).2.1
  | readToNewline => exact (ReadToNewline_facts t).2.1

theorem applyOp_flavor_true (t : Tokenizer) (op : TokOp) (hf : t.makefile_flavor_ = true) :
    (t.applyOp op).makefile_flavor_ = true := by
  by_cases h : op = .setMakefileFlavor
  · subst h; rfl
  · rw [applyOp_flavor_eq t op h]; exact hf

theorem applyOps_cur_le (ops : List TokOp) :
    ∀ (t : Tokenizer), t.cur_ ≤ t.buf.length →
      (t.applyOps ops).cur_ ≤ (t.applyOps ops).buf.length := by
  induction ops with
  | nil => intro t h; exact h
  | cons op ops ih =>
    intro t h
    show ((t.applyOp op).applyOps ops).cur_ ≤ _
    apply ih
    cases hop : op.isStart
    · obtain ⟨f1, f2, _⟩ := applyOp_facts t op hop
      rw [f1]
      exact f2 h
    · cases op with
      | start buf => exact Nat.zero_le _
      | setMakefileFlavor => simp [TokOp.isStart] at hop
      | skipWhitespace => simp [TokOp.isStart] at hop
      | peek => simp [TokOp.isStart] at hop
      | consume => simp [TokOp.isStart] at hop
      | readIdent => simp [TokOp.isStart] at hop
      | expectToken ty => simp [TokOp.isStart] at hop
      | readToNewline => simp [TokOp.isStart] at hop

theorem applyOps_line_mono (ops : List TokOp) :
    ∀ (t : Tokenizer), (∀ op ∈ ops, op.isStart = false) →
      t.line_number_ ≤ (t.applyOps ops).line_number_ := by
  induction ops with
  | nil => intro t _; exact Nat.le_refl _
  | cons op ops ih =>
    intro t h
    show t.line_number_ ≤ ((t.applyOp op).applyOps ops).line_number_
    refine le_trans (applyOp_facts t op (h op (List.mem_cons_self _ _))).2.2 ?_
    exact ih (t.applyOp op) fun o ho => h o (List.mem_cons_of_mem _ ho)

theorem applyOps_flavor_true (ops : List TokOp) :
    ∀ (t : Tokenizer), t.makefile_flavor_ = true →
      (t.applyOps ops).makefile_flavor_ = true := by
  induction ops with
  | nil => intro t h; exact h
  | cons op ops ih =>
    intro t h
    exact ih (t.applyOp op) (applyOp_flavor_true t op h)

theorem ConsumeToken_token (t : Tokenizer) : t.ConsumeToken.token_.type_ = .NONE := by
  rw [Tokenizer.ConsumeToken]
  by_cases h : t.token_.type_ = .NEWLINE
  · rw [if_pos h]
  · rw [if_neg h]

theorem scanToken_at_end (t : Tokenizer) (hcur : t.cur_ = t.buf.length) :
    t.scanToken.1 = .TEOF ∧ t.scanToken.2.cur_ = t.cur_ ∧
    t.scanToken.2.buf = t.buf ∧ t.scanToken.2.token_.type_ = .TEOF := by
  have hdrop : t.buf.drop t.cur_ = [] := by
    rw [hcur]; exact List.drop_length _
  have hskip : skipWS t.makefile_flavor_ (t.buf.drop t.cur_) = (0, 0, none) := by
    rw [hdrop]; rfl
  have hnone : t.buf[t.cur_ + 0]? = none := by
    rw [Nat.add_zero, hcur]
    exact List.getElem?_eq_none (Nat.le_refl _)
  simp only [Tokenizer.scanToken, hskip, Tokenizer.setTok]
  simp only [hnone]
  refine ⟨trivial, by show t.cur_ + 0 = t.cur_; omega, trivial, trivial⟩

theorem PeekToken_sticky (t : Tokenizer) (hcur : t.cur_ = t.buf.length)
    (htok : t.token_.type_ = .NONE) :
    t.PeekToken.1 = .TEOF ∧ t.PeekToken.2.cur_ = t.cur_ ∧
    t.PeekToken.2.PeekToken.1 = .TEOF ∧
    t.PeekToken.2.ConsumeToken.PeekToken.1 = .TEOF ∧
    t.PeekToken.2.ConsumeToken.PeekToken.2.cur_ = t.cur_ := by
  have hpeek : t.PeekToken = t.scanToken := by
    rw [Tokenizer.PeekToken, if_pos htok]
  obtain ⟨s1, s2, s3, s4⟩ := scanToken_at_end t hcur
  have hrepeek : t.scanToken.2.PeekToken = (t.scanToken.2.token_.type_, t.scanToken.2) := by
    rw [Tokenizer.PeekToken, if_neg (by rw [s4]; intro h; exact absurd h (by decide))]
  obtain ⟨c1, _, c3, _⟩ := ConsumeToken_facts t.scanToken.2
  have hcur2 : t.scanToken.2.ConsumeToken.cur_ = t.scanToken.2.ConsumeToken.buf.length := by
    rw [c1, c3, s2, s3, hcur]
  have hpeek2 : t.scanToken.2.ConsumeToken.PeekToken = t.scanToken.2.ConsumeToken.scanToken := by
    rw [Tokenizer.PeekToken, if_pos (ConsumeToken_token _)]
  obtain ⟨u1, u2, _, _⟩ := scanToken_at_end t.scanToken.2.ConsumeToken hcur2
  refine ⟨by rw [hpeek]; exact s1, by rw [hpeek]; exact s2, ?_, ?_, ?_⟩
  · rw [hpeek, hrepeek, s4]
  · rw [hpeek, hpeek2]
    exact u1
  · rw [hpeek, hpeek2, u2, c3, s2]

theorem isIdentChar_char_facts (c : Char) (h : isIdentChar c = true) :
    c ≠ '\n' ∧ c ≠ ' ' ∧ c ≠ '\t' ∧ c ≠ '#' ∧ c ≠ '$' := by
  refine ⟨?_, ?_, ?_, ?_, ?_⟩ <;>
    (intro he; rw [he] at h; exact absurd h (by decide))

theorem peek_fresh_ident (c : Char) (rest : List Char) (h : isIdentChar c = true) :
    (Tokenizer.init.Start (c :: rest)).PeekToken.2.Location = ⟨1, 1⟩ := by
  obtain ⟨hn, hsp, ht, hh, hd⟩ := isIdentChar_char_facts c h
  have hskip : skipWSAux false (rest.length + 1 + 1) false (c :: rest) = (0, 0, none) := by
    rw [skipWSAux]
    rw [if_neg hn]
    rw [if_neg (by decide : ¬(false = true))]
    rw [if_neg (by simp [hsp, ht] : ¬((c = ' ' || c = '\t') = true))]
    rw [if_neg hh]
    rw [if_neg (by simp [contChar, hd] : ¬((c = contChar false && rest.head? = some '\n') = true))]
  have hstart : (Tokenizer.init.Start (c :: rest)).PeekToken =
      (Tokenizer.init.Start (c :: rest)).scanToken := by
    rw [Tokenizer.PeekToken,
      if_pos (show (Tokenizer.init.Start (c :: rest)).token_.type_ = Token.Type.NONE from rfl)]
  rw [hstart]
  simp [Tokenizer.scanToken, Tokenizer.Start, Tokenizer.init, skipWS, hskip,
    Tokenizer.scanFromChar, h, Tokenizer.setTok, Tokenizer.Location, hn]

/-!
The claims.
-/

/-- C1: for every top-level `key = value` line parsed outside rule and
edge bodies, `ParseLet` binds the key in the current scope to the
immediate `$`-expansion of the value against the scope as it was before
the assignment; in particular the self-referential redefinition
`x = $x y` expands `$x` to the old value of `x` (here an arbitrary prior
binding `old`, in an arbitrary surrounding scope and graph), not the new
one. -/
theorem parse_let_binds_immediate_expansion
    (file_reader : FileReader) (st : State) (env : BindingEnv) (old : String)
    (h : env.LookupVariable "x" = some old) :
    ManifestParser.Parse file_reader "x = $x y\n" st env =
      (none, st, env.AddBinding "x" (old ++ " y")) := by
  have base : ManifestParser.Parse file_reader "x = $x y\n" st env =
      (none, st, env.AddBinding "x" (("" ++ (env.LookupVariable "x").getD "") ++ " y")) := rfl
  rw [base, h]
  rw [Option.getD_some, empty_append_str]

theorem parse_let_binds_immediate_expansion_witness :
    (BindingEnv.root [("x", "a")]).LookupVariable "x" = some "a" ∧
    ManifestParser.Parse noFileReader "x = $x y\n" State.empty (BindingEnv.root [("x", "a")]) =
      (none, State.empty, (BindingEnv.root [("x", "a")]).AddBinding "x" ("a" ++ " y")) :=
  ⟨rfl, parse_let_binds_immediate_expansion noFileReader State.empty
    (BindingEnv.root [("x", "a")]) "a" rfl⟩

/-- C2: a binding inside a rule body is stored by `ParseLetValue` as an
unexpanded deferred value: parsing `rule cc` whose body references
`$msg` stores the fragments `[lit "echo ", varRef "msg"]` untouched,
whatever the scope at parse time was; the variable defined textually
after the rule determines the value the body resolves to when later
expanded against the final scope. -/
theorem parse_let_value_stores_deferred_value
    (file_reader : FileReader) (st : State) (env : BindingEnv) :
    ManifestParser.Parse file_reader "rule cc\n  command = echo $msg\nmsg = hello\n" st env =
      (none,
       { st with rules := st.rules ++
           [⟨"cc", [("command", ⟨[.lit "echo ", .varRef "msg"]⟩)]⟩] },
       env.AddBinding "msg" "hello") ∧
    EvalString.Evaluate ⟨[.lit "echo ", .varRef "msg"]⟩ (env.AddBinding "msg" "hello") =
      "echo hello" := by
  constructor
  · rfl
  · show ("" ++ "echo " ++ ((env.AddBinding "msg" "hello").LookupVariable "msg").getD "") = _
    rw [lookup_AddBinding_same]
    rfl

/-- C3: `ParseEdge` splits the identifiers after the rule name into three
distinct lists handed to edge registration: explicit inputs before any
pipe, implicit inputs after a single `|`, order-only inputs after `||`;
on `build out: cc a.c | header.h || other.ninja` the registered edge
carries inputs `[a.c]`, implicit `[header.h]`, order-only
`[other.ninja]`, in separate fields. -/
theorem parse_edge_distinct_input_lists (file_reader : FileReader) (env : BindingEnv) :
    ManifestParser.Parse file_reader "build out: cc a.c | header.h || other.ninja\n"
        ⟨[⟨"cc", []⟩], [], [], []⟩ env =
      (none,
       ⟨[⟨"cc", []⟩],
        [⟨["out"], "cc", ["a.c"], ["header.h"], ["other.ninja"], []⟩], [], []⟩,
       env) := rfl

/-- C4: after a `subninja` statement returns, a variable defined inside
the sub-included file is not visible via lookup in the includer's scope
(the sub-file was parsed in a fresh child scope), while after an
`include` of the same file the variable IS visible (the includer's scope
was reused). -/
theorem subninja_isolated_include_shared (st : State) (env : BindingEnv)
    (h : env.LookupVariable "x" = none) :
    (ManifestParser.Parse subninjaFileReader "subninja sub.ninja\n" st env = (none, st, env) ∧
      (ManifestParser.Parse subninjaFileReader "subninja sub.ninja\n" st env).2.2.LookupVariable
        "x" = none) ∧
    (ManifestParser.Parse subninjaFileReader "include sub.ninja\n" st env =
        (none, st, env.AddBinding "x" "inner") ∧
      (ManifestParser.Parse subninjaFileReader "include sub.ninja\n" st env).2.2.LookupVariable
        "x" = some "inner") := by
  have hsub : ManifestParser.Parse subninjaFileReader "subninja sub.ninja\n" st env =
      (none, st, env) := rfl
  have hinc : ManifestParser.Parse subninjaFileReader "include sub.ninja\n" st env =
      (none, st, env.AddBinding "x" "inner") := rfl
  refine ⟨⟨hsub, ?_⟩, hinc, ?_⟩
  · rw [hsub]; exact h
  · rw [hinc]; exact lookup_AddBinding_same env "x" "inner"

theorem subninja_isolated_include_shared_witness :
    (BindingEnv.root []).LookupVariable "x" = none ∧
    (ManifestParser.Parse subninjaFileReader "subninja sub.ninja\n" State.empty
        (BindingEnv.root [])).2.2.LookupVariable "x" = none ∧
    (ManifestParser.Parse subninjaFileReader "include sub.ninja\n" State.empty
        (BindingEnv.root [])).2.2.LookupVariable "x" = some "inner" :=
  ⟨rfl,
   (subninja_isolated_include_shared State.empty (BindingEnv.root []) rfl).1.2,
   (subninja_isolated_include_shared State.empty (BindingEnv.root []) rfl).2.2⟩

/-- C5: `MakefileParser::Parse` on `out: a b c` succeeds with output
`out` and inputs `[a, b, c]`; the line-continued form `out: a \`
(newline) `  b c` yields the same output and inputs; duplicates are
preserved in order and an empty input list is valid. -/
theorem makefile_parse_round_trip :
    ((MakefileParser.Parse "out: a b c\n").1 = none ∧
      (MakefileParser.Parse "out: a b c\n").2.out_ = "out" ∧
      (MakefileParser.Parse "out: a b c\n").2.ins_ = ["a", "b", "c"]) ∧
    ((MakefileParser.Parse "out: a \\\n  b c\n").1 = none ∧
      (MakefileParser.Parse "out: a \\\n  b c\n").2.out_ = "out" ∧
      (MakefileParser.Parse "out: a \\\n  b c\n").2.ins_ = ["a", "b", "c"]) ∧
    (MakefileParser.Parse "out: a a\n").2.ins_ = ["a", "a"] ∧
    (MakefileParser.Parse "out:\n").1 = none ∧
    (MakefileParser.Parse "out:\n").2.ins_ = [] :=
  ⟨⟨rfl, rfl, rfl⟩, ⟨rfl, rfl, rfl⟩, rfl, rfl, rfl⟩

/-- C6: whenever `Parse` fails (other than by the modelled resource
limit), it fails at the first failing statement: the run decomposes into
a chain of successfully processed statements followed by one failing
statement whose error and mutated collaborators are returned exactly —
so no statement after the error is processed, no further mutation
occurs, and every mutation already applied remains in place. -/
theorem parse_halts_at_first_error (fuel : Nat) (file_reader : FileReader)
    (st : State) (env : BindingEnv) (t : Tokenizer)
    (e : String) (st' : State) (env' : BindingEnv) (t' : Tokenizer)
    (hrun : parseStmts fuel file_reader st env t = (some e, st', env', t'))
    (hne : e ≠ fuelErrMsg) :
    ∃ c₀ : State × BindingEnv × Tokenizer,
      StmtSteps file_reader (st, env, t) c₀ ∧
      ∃ f, parseStmt f file_reader c₀.1 c₀.2.1 c₀.2.2 = .fail e st' env' t' := by
  induction fuel generalizing st env t with
  | zero =>
    rw [parseStmts] at hrun
    injection hrun with h1 _
    injection h1 with h1
    exact absurd h1.symm hne
  | succ fuel ih =>
    rw [parseStmts] at hrun
    rcases hps : parseStmtWith (parseStmts fuel file_reader) file_reader st env t with
      t1 | ⟨st1, env1, t1⟩ | ⟨e1, st1, env1, t1⟩
    · rw [hps] at hrun
      simp at hrun
    · rw [hps] at hrun
      obtain ⟨c₀, hsteps, hfail⟩ := ih st1 env1 t1 hrun
      exact ⟨c₀, .step fuel (st, env, t) (st1, env1, t1) c₀ hps hsteps, hfail⟩
    · rw [hps] at hrun
      simp only [Prod.mk.injEq, Option.some.injEq] at hrun
      obtain ⟨he, hst, henv, ht⟩ := hrun
      subst he hst henv ht
      exact ⟨(st, env, t), .refl _, fuel, hps⟩

theorem parse_halts_at_first_error_witness :
    (errorExampleRun.2.1 = ⟨[⟨"foo", [("command", ⟨[.lit "echo hi"]⟩)]⟩],
               [⟨["out"], "foo", ["in"], [], [], []⟩], [], []⟩) ∧
    ∃ c₀, StmtSteps noFileReader (State.empty, BindingEnv.root [], errorExampleTokenizer) c₀ ∧
      ∃ f, parseStmt f noFileReader c₀.1 c₀.2.1 c₀.2.2 =
        .fail "5:8: expected '=', got newline" errorExampleRun.2.1 errorExampleRun.2.2.1
          errorExampleRun.2.2.2 :=
  ⟨rfl,
   parse_halts_at_first_error errorExampleFuel noFileReader State.empty (BindingEnv.root [])
     errorExampleTokenizer "5:8: expected '=', got newline"
     errorExampleRun.2.1 errorExampleRun.2.2.1 errorExampleRun.2.2.2 rfl (by decide)⟩

/-- C7: for every buffer consisting solely of whitespace and comment
lines, `Parse` succeeds and performs no mutation: the graph and the
scope come back exactly as they went in (no rule, edge, pool, default or
binding is defined). -/
theorem whitespace_comment_buffer_defines_nothing
    (file_reader : FileReader) (input : String) (st : State) (env : BindingEnv)
    (hb : blankOnly false input.toList = true) :
    ManifestParser.Parse file_reader input st env = (none, st, env) := by
  obtain ⟨h1, h2, h3⟩ :=
    parseStmts_blank file_reader (input.toList.length + 1) st env
      (Tokenizer.init.Start input.toList) (by simpa [Tokenizer.Start] using hb) rfl
      (by simp [Tokenizer.Start])
  rw [ManifestParser.Parse]
  exact Prod.ext h1 (Prod.ext h2 h3)

theorem whitespace_comment_buffer_defines_nothing_witness :
    blankOnly false "  \n# a comment\n   # more\n\t\n".toList = true ∧
    ManifestParser.Parse (fun _ => none) "  \n# a comment\n   # more\n\t\n" State.empty
      (BindingEnv.root [("a", "b")]) = (none, State.empty, BindingEnv.root [("a", "b")]) :=
  ⟨by decide,
   whitespace_comment_buffer_defines_nothing (fun _ => none) "  \n# a comment\n   # more\n\t\n"
     State.empty (BindingEnv.root [("a", "b")]) (by decide)⟩
/-- C8: in every reachable state while scanning one buffer, the cursor
stays within the buffer (`cur_ ≤ end_`), the line number never decreases
under any buffer-local operation, and once the cursor has reached the end
of the buffer every subsequent `PeekToken` yields `TEOF` without moving
the cursor (end of file is sticky, through peeks and consumes alike). -/
theorem tokenizer_cursor_line_eof_invariants :
    (∀ (t0 : Tokenizer) (buf : List Char) (ops : List TokOp),
      ((t0.Start buf).applyOps ops).cur_ ≤ ((t0.Start buf).applyOps ops).end_) ∧
    (∀ (t : Tokenizer) (ops : List TokOp), (∀ op ∈ ops, op.isStart = false) →
      t.line_number_ ≤ (t.applyOps ops).line_number_) ∧
    (∀ t : Tokenizer, t.cur_ = t.end_ → t.token_.type_ = .NONE →
      t.PeekToken.1 = .TEOF ∧ t.PeekToken.2.cur_ = t.cur_ ∧
      t.PeekToken.2.PeekToken.1 = .TEOF ∧
      t.PeekToken.2.ConsumeToken.PeekToken.1 = .TEOF ∧
      t.PeekToken.2.ConsumeToken.PeekToken.2.cur_ = t.cur_) :=
  ⟨fun t0 buf ops => applyOps_cur_le ops (t0.Start buf) (Nat.zero_le _),
   fun t ops h => applyOps_line_mono ops t h,
   fun t hcur htok => PeekToken_sticky t hcur htok⟩

theorem tokenizer_cursor_line_eof_invariants_witness :
    ((∀ op ∈ [TokOp.peek, TokOp.consume, TokOp.readIdent], op.isStart = false) ∧
      (Tokenizer.init.Start "a b".toList).line_number_ ≤
        ((Tokenizer.init.Start "a b".toList).applyOps
          [TokOp.peek, TokOp.consume, TokOp.readIdent]).line_number_) ∧
    ((Tokenizer.init.Start "x".toList).applyOps [TokOp.peek, TokOp.consume]).cur_ =
        ((Tokenizer.init.Start "x".toList).applyOps [TokOp.peek, TokOp.consume]).end_ ∧
    ((Tokenizer.init.Start "x".toList).applyOps
        [TokOp.peek, TokOp.consume]).token_.type_ = .NONE ∧
    ((Tokenizer.init.Start "x".toList).applyOps [TokOp.peek, TokOp.consume]).PeekToken.1 =
      .TEOF :=
  ⟨⟨by decide,
    tokenizer_cursor_line_eof_invariants.2.1 (Tokenizer.init.Start "a b".toList)
      [TokOp.peek, TokOp.consume, TokOp.readIdent] (by decide)⟩,
   rfl, rfl,
   (tokenizer_cursor_line_eof_invariants.2.2
      ((Tokenizer.init.Start "x".toList).applyOps [TokOp.peek, TokOp.consume])
      rfl rfl).1⟩

/-- C10: a fresh `Tokenizer` is in native flavor; `SetMakefileFlavor` is
the only flavor-changing operation, and once it has been called the
tokenizer stays in makefile flavor under every further operation
(including re-`Start`s) for its lifetime. -/
theorem makefile_flavor_latch :
    Tokenizer.init.makefile_flavor_ = false ∧
    (∀ (t : Tokenizer) (ops : List TokOp),
      (t.SetMakefileFlavor.applyOps ops).makefile_flavor_ = true) ∧
    (∀ (t : Tokenizer) (op : TokOp), op ≠ .setMakefileFlavor →
      (t.applyOp op).makefile_flavor_ = t.makefile_flavor_) :=
  ⟨rfl,
   fun t ops => applyOps_flavor_true ops t.SetMakefileFlavor rfl,
   fun t op h => applyOp_flavor_eq t op h⟩

theorem makefile_flavor_latch_witness :
    (TokOp.peek ≠ TokOp.setMakefileFlavor) ∧
    ((Tokenizer.init.Start "a".toList).applyOp TokOp.peek).makefile_flavor_ =
      (Tokenizer.init.Start "a".toList).makefile_flavor_ :=
  ⟨by decide,
   makefile_flavor_latch.2.2 (Tokenizer.init.Start "a".toList) TokOp.peek (by decide)⟩

/-- C9: the error constructors always fail: `SourceLocation::Error` writes
the formatted message and returns `false`, `Tokenizer::Error` anchors the
location at the current token as `(line_number_ + 1, token_.pos_ -
cur_line_ + 1)` (1-based), and the first token of a freshly started
buffer is reported at line 1, column 1. -/
theorem error_returns_false_and_location :
    (∀ (line col : Nat) (message : String),
      (SourceLocation.Error ⟨line, col⟩ message).1 = false ∧
      (SourceLocation.Error ⟨line, col⟩ message).2 =
        toString line ++ ":" ++ toString col ++ ": " ++ message) ∧
    (∀ (t : Tokenizer) (message : String),
      (t.Error message).1 = false ∧
      t.Error message =
        SourceLocation.Error ⟨t.line_number_ + 1, t.token_.pos_ - t.cur_line_ + 1⟩ message) ∧
    (∀ (c : Char) (rest : List Char), isIdentChar c = true →
      (Tokenizer.init.Start (c :: rest)).PeekToken.2.Location = ⟨1, 1⟩) :=
  ⟨fun _ _ _ => ⟨rfl, rfl⟩,
   fun _ _ => ⟨rfl, rfl⟩,
   fun c rest h => peek_fresh_ident c rest h⟩

theorem error_returns_false_and_location_witness :
    isIdentChar 'a' = true ∧
    (Tokenizer.init.Start ('a' :: " cmd".toList)).PeekToken.2.Location = ⟨1, 1⟩ :=
  ⟨by decide,
   error_returns_false_and_location.2.2 'a' " cmd".toList (by decide)⟩

